import Mathlib

/-!
# Verification of the GameHub Boggle engine

Shallow embedding of the Boggle word-finding and validation engine
(`src/games/boggle/{solver,store,scoring,dictionary,board}.ts`) and proofs of
the specified properties.

Modelling conventions:
* JavaScript strings are modelled as `List Char`; `String.prototype.toUpperCase`
  is modelled by `upperChar` (ASCII case mapping, the only case the engine uses).
* `Position` uses `Int` coordinates (JS numbers; callers may pass any integers).
* Board grid cells keep the source's `String` type for their glyphs.
* The zustand store is modelled as a pure state record with each action a
  function from state to state (and a result record for the submit actions).
* The recursive DFS routines of the solver carry an explicit fuel argument;
  the fuel chosen in the wrappers (`board.size * board.size + 1`) dominates the
  recursion depth, which is bounded by the visited set.
-/

namespace GameHub

/-- A grid position (`src/games/types.ts`): a row/column pair of JS numbers. -/
structure Position where
  row : Int
  col : Int
deriving DecidableEq, Repr

/-- A Boggle board (`src/games/boggle/types.ts`): a grid of glyph strings and a
side length. -/
structure BoggleBoard where
  grid : List (List String)
  size : Nat
deriving DecidableEq, Repr

/-- ASCII uppercase mapping of one character: model of what
`String.prototype.toUpperCase` does on the characters this engine handles. -/
def upperChar (c : Char) : Char :=
  if 97 ≤ c.toNat ∧ c.toNat ≤ 122 then Char.ofNat (c.toNat - 32) else c

/-- Uppercase a word (model of `String.prototype.toUpperCase`). -/
def upper (s : List Char) : List Char := s.map upperChar

/-- `getLetter` (`board.ts`): bounds-checked accessor; `none` when out of the
`size` range or when the (possibly ragged) grid has no entry there. -/
def getLetter (board : BoggleBoard) (row col : Int) : Option String :=
  if row < 0 ∨ (board.size : Int) ≤ row ∨ col < 0 ∨ (board.size : Int) ≤ col then
    none
  else
    match board.grid.get? row.toNat with
    | none => none
    | some r => r.get? col.toNat

/-- `areAdjacent` (`solver.ts`): 8-directional adjacency, excluding equality. -/
def areAdjacent (p1 p2 : Position) : Bool :=
  let rowDiff := (p1.row - p2.row).natAbs
  let colDiff := (p1.col - p2.col).natAbs
  decide (rowDiff ≤ 1) && decide (colDiff ≤ 1) &&
    (decide (rowDiff ≠ 0) || decide (colDiff ≠ 0))

/-- The duplicate-position check of `isValidPath` (`solver.ts`), which tracks a
seen-set keyed by `(row, col)`; since `Position` is exactly that key, the check
is equivalent to the path having no repeated entry. -/
def noRepeatsB : List Position → Bool
  | [] => true
  | p :: rest => !(decide (p ∈ rest)) && noRepeatsB rest

/-- The consecutive-adjacency check of `isValidPath` (`solver.ts`). -/
def adjChainB : List Position → Bool
  | p :: q :: rest => areAdjacent p q && adjChainB (q :: rest)
  | _ => true

/-- `isValidPath` (`solver.ts`): non-empty, no repeated position, consecutive
positions adjacent. -/
def isValidPath (path : List Position) : Bool :=
  if path.isEmpty then false
  else noRepeatsB path && adjChainB path

/-- `getWordFromPath` (`solver.ts`): concatenate the glyphs along the path
(missing letters become the empty string) and uppercase the result. -/
def getWordFromPath (board : BoggleBoard) (path : List Position) : List Char :=
  upper ((path.map (fun pos => ((getLetter board pos.row pos.col).getD "").data)).flatten)

/-! ## Dictionary (`dictionary.ts`)

The dictionary is a module-level singleton built from a static word list; we
parameterise every consumer by the word list `dict` instead of the global. -/

/-- `TrieNode` (`types.ts`): children as an association list modelling the JS
`Map<string, TrieNode>` (one character per key), plus the terminal flag. -/
inductive TrieNode where
  | mk (isWord : Bool) (children : List (Char × TrieNode))

/-- `createNode` (`dictionary.ts`): fresh node, no children, not a word. -/
def createNode : TrieNode := .mk false []

/-- `Map.get` on the children map. -/
def lookupChild (c : Char) : List (Char × TrieNode) → Option TrieNode
  | [] => none
  | (d, t) :: cs => if d = c then some t else lookupChild c cs

/-- `Map.set` on the children map when the key is already present. -/
def updateChild (c : Char) (t' : TrieNode) : List (Char × TrieNode) → List (Char × TrieNode)
  | [] => []
  | (d, t) :: cs => if d = c then (d, t') :: cs else (d, t) :: updateChild c t' cs

/-- The character loop of `insertWord` (`dictionary.ts`): walk/extend the trie
along the characters, marking the last node terminal. -/
def insertChars : TrieNode → List Char → TrieNode
  | .mk _ cs, [] => .mk true cs
  | .mk b cs, c :: rest =>
    match lookupChild c cs with
    | some child => .mk b (updateChild c (insertChars child rest) cs)
    | none => .mk b ((c, insertChars createNode rest) :: cs)

/-- `insertWord` (`dictionary.ts`): inserts `word.toUpperCase()` into the trie. -/
def insertWord (t : TrieNode) (word : List Char) : TrieNode :=
  insertChars t (upper word)

/-- The trie built by `loadDictionary` (`dictionary.ts`): every word of the word
list is uppercased and inserted. -/
def trieOf (dict : List (List Char)) : TrieNode :=
  dict.foldl (fun t word => insertWord t (upper word)) createNode

/-- `isWord` (`dictionary.ts`): membership of `word.toUpperCase()` in the word
set built by `loadDictionary` (the uppercased word list). -/
def isWord (dict : List (List Char)) (word : List Char) : Bool :=
  decide (upper word ∈ dict.map upper)

/-- The trie walk of the prefix check (`dictionary.ts`). -/
def prefixWalk : TrieNode → List Char → Bool
  | _, [] => true
  | .mk _ cs, c :: rest =>
    match lookupChild c cs with
    | none => false
    | some child => prefixWalk child rest

/-- The prefix check of `dictionary.ts` (exported there next to `isWord`):
walks `prefix.toUpperCase()` down the trie, true iff every step has a child. -/
def isPrefixB (t : TrieNode) (p : List Char) : Bool :=
  prefixWalk t (upper p)

/-- `calculateWordScore` (`scoring.ts`): tiered Boggle scoring by word length. -/
def calculateWordScore (word : List Char) : Nat :=
  let length := word.length
  if length < 3 then 0
  else if length ≤ 4 then 1
  else if length = 5 then 2
  else if length = 6 then 3
  else if length = 7 then 5
  else 11

/-- `calculateTotalScore` (`scoring.ts`): sum of the word scores. -/
def calculateTotalScore (words : List (List Char)) : Nat :=
  words.foldl (fun total word => total + calculateWordScore word) 0

/-! ## Solver (`solver.ts`) -/

/-- Result record of `validateWord` (`solver.ts`). -/
structure ValidationResult where
  valid : Bool
  word : List Char
  reason : Option String
deriving DecidableEq, Repr

/-- `validateWord` (`solver.ts`): path length, path validity, word length and
dictionary checks, in source order. -/
def validateWord (dict : List (List Char)) (board : BoggleBoard)
    (path : List Position) : ValidationResult :=
  if path.length < 3 then
    ⟨false, [], some "Word must be at least 3 letters"⟩
  else if ¬ isValidPath path then
    ⟨false, [], some "Invalid path"⟩
  else
    let word := getWordFromPath board path
    if word.length < 3 then
      ⟨false, word, some "Word must be at least 3 letters"⟩
    else if ¬ isWord dict word then
      ⟨false, word, some "Not in dictionary"⟩
    else
      ⟨true, word, none⟩

/-- The eight neighbour offsets explored by the solver's DFS loops
(`for dr in -1..1, dc in -1..1, skipping (0,0)`), in loop order. -/
def neighborDeltas : List (Int × Int) :=
  [(-1, -1), (-1, 0), (-1, 1), (0, -1), (0, 1), (1, -1), (1, 0), (1, 1)]

/-- The inner `dfs` of `findAllWords` (`solver.ts`): bounds check, visited
check, letter lookup (a missing or empty letter abandons the branch, matching
the falsy test `if (!letter) return`), prefix pruning, word recording, and
recursion into the eight neighbours.  The mutable `foundWords` set becomes the
returned `Finset`; the mutable `visited` matrix becomes the `visited` list
(entries are unmarked on backtrack in the source, so each recursive call sees
exactly the positions of the current call stack).  `fuel` dominates the
recursion depth, which the visited set bounds by the number of cells. -/
def findDfs (dict : List (List Char)) (t : TrieNode) (board : BoggleBoard) :
    Nat → List Position → Int → Int → List Char → Finset (List Char)
  | 0, _, _, _, _ => ∅
  | fuel + 1, visited, row, col, currentWord =>
    if row < 0 ∨ (board.size : Int) ≤ row ∨ col < 0 ∨ (board.size : Int) ≤ col then ∅
    else if (⟨row, col⟩ : Position) ∈ visited then ∅
    else
      match getLetter board row col with
      | none => ∅
      | some letter =>
        if letter = "" then ∅
        else
          let newWord := currentWord ++ upper letter.data
          if ¬ isPrefixB t newWord then ∅
          else
            (if 3 ≤ newWord.length ∧ isWord dict newWord then {newWord} else ∅) ∪
              neighborDeltas.foldr
                (fun d acc =>
                  findDfs dict t board fuel (⟨row, col⟩ :: visited)
                    (row + d.1) (col + d.2) newWord ∪ acc)
                ∅

/-- `findAllWords` (`solver.ts`): DFS from every cell, collecting the found
words into a set (the source finally sorts the set into an array; the set of
its entries, which is what the properties are about, is returned here). -/
def findAllWords (dict : List (List Char)) (board : BoggleBoard) : Finset (List Char) :=
  (List.range board.size).foldr
    (fun (row : Nat) acc =>
      (List.range board.size).foldr
        (fun (col : Nat) acc2 =>
          findDfs dict (trieOf dict) board (board.size * board.size + 1) []
            ((row : Int)) ((col : Int)) [] ∪ acc2)
        acc)
    ∅

/-- The inner `dfs` of `canFormWord` (`solver.ts`): the target-exhausted check
precedes the bounds and visited checks; a `QU` glyph must match two target
characters at once; any other glyph must equal the single target character at
the current index (`letter !== target[index]` compares the whole glyph string
with the one-character string `target[index]`, or with `undefined` past the
end). -/
def canFormDfs (board : BoggleBoard) (target : List Char) :
    Nat → List Position → Int → Int → Nat → Bool
  | 0, _, _, _, _ => false
  | fuel + 1, visited, row, col, index =>
    if index = target.length then true
    else if row < 0 ∨ (board.size : Int) ≤ row ∨ col < 0 ∨ (board.size : Int) ≤ col then
      false
    else if (⟨row, col⟩ : Position) ∈ visited then false
    else
      match getLetter board row col with
      | none => false
      | some rawLetter =>
        let letter := upper rawLetter.data
        if letter = [] then false
        else if letter = ['Q', 'U'] then
          if ¬ ((target.drop index).take 2 = ['Q', 'U']) then false
          else
            neighborDeltas.any fun d =>
              canFormDfs board target fuel (⟨row, col⟩ :: visited)
                (row + d.1) (col + d.2) (index + 2)
        else
          let letterMatches : Bool :=
            match target.get? index with
            | some c => decide (letter = [c])
            | none => false
          if ¬ letterMatches then false
          else
            neighborDeltas.any fun d =>
              canFormDfs board target fuel (⟨row, col⟩ :: visited)
                (row + d.1) (col + d.2) (index + 1)

/-- `canFormWord` (`solver.ts`): try the DFS from every cell. -/
def canFormWord (board : BoggleBoard) (word : List Char) : Bool :=
  let target := upper word
  (List.range board.size).any fun row =>
    (List.range board.size).any fun col =>
      canFormDfs board target (board.size * board.size + 1) []
        (row : Int) (col : Int) 0

/-! ## Session store (`store.ts`)

The zustand store is modelled as a state record; each action is a pure function
from state to state (plus a result record for the submit actions).  The store's
calls into the singleton dictionary are parameterised by the word list `dict`. -/

/-- The mutable fields of the store (`BoggleState` in `types.ts`, as used by
`store.ts`). -/
structure GameState where
  board : Option BoggleBoard
  foundWords : List (List Char)
  currentPath : List Position
  currentWord : List Char
  score : Nat
  gameOver : Bool
  isLoading : Bool
deriving DecidableEq, Repr

/-- The `{ success, word?, reason? }` record returned by the submit actions. -/
structure SubmitResult where
  success : Bool
  word : Option (List Char)
  reason : Option String
deriving DecidableEq, Repr

/-- The state set by `initGame` (`store.ts`) once the board is generated
(`generateBoard` is random; the produced board is a parameter here). -/
def initState (board : BoggleBoard) : GameState :=
  { board := some board, foundWords := [], currentPath := [], currentWord := [],
    score := 0, gameOver := false, isLoading := false }

/-- JS `grid[row]?.[col]` (used directly by `selectTile`'s restart case):
negative or too-large indices yield `undefined`. -/
def gridLookup (grid : List (List String)) (row col : Int) : Option String :=
  if row < 0 then none
  else
    match grid.get? row.toNat with
    | none => none
    | some r => if col < 0 then none else r.get? col.toNat

/-- `selectTile` (`store.ts`): ignore when no board or game over; tapping the
last tile is a no-op; tapping an earlier tile truncates the path back to it;
tapping a non-adjacent tile restarts the path there; otherwise append. -/
def selectTile (pos : Position) (s : GameState) : GameState :=
  match s.board with
  | none => s
  | some board =>
    if s.gameOver then s
    else
      match s.currentPath.findIdx? (fun p => p.row = pos.row ∧ p.col = pos.col) with
      | some existingIndex =>
        if existingIndex = s.currentPath.length - 1 then s
        else
          let newPath := s.currentPath.take (existingIndex + 1)
          { s with currentPath := newPath, currentWord := getWordFromPath board newPath }
      | none =>
        if h : s.currentPath ≠ [] then
          let lastPos := s.currentPath.getLast h
          let rowDiff := (pos.row - lastPos.row).natAbs
          let colDiff := (pos.col - lastPos.col).natAbs
          let isAdjacent := rowDiff ≤ 1 ∧ colDiff ≤ 1
          if ¬ isAdjacent then
            let letter := (gridLookup board.grid pos.row pos.col).getD ""
            { s with currentPath := [pos], currentWord := upper letter.data }
          else
            let newPath := s.currentPath ++ [pos]
            { s with currentPath := newPath,
                     currentWord := getWordFromPath board newPath }
        else
          let newPath := s.currentPath ++ [pos]
          { s with currentPath := newPath,
                   currentWord := getWordFromPath board newPath }

/-- `deselectTile` (`store.ts`): drop the last path entry. -/
def deselectTile (s : GameState) : GameState :=
  match s.board with
  | none => s
  | some board =>
    if s.currentPath.length = 0 then s
    else
      let newPath := s.currentPath.dropLast
      let newWord := if 0 < newPath.length then getWordFromPath board newPath else []
      { s with currentPath := newPath, currentWord := newWord }

/-- `submitWord` (`store.ts`): validate the current path, reject duplicates,
otherwise record the word and add its score; the path is cleared on every
outcome. -/
def submitWord (dict : List (List Char)) (s : GameState) : GameState × SubmitResult :=
  match s.board with
  | none =>
    ({ s with currentPath := [], currentWord := [] },
     ⟨false, none, some "Word must be at least 3 letters"⟩)
  | some board =>
    if s.currentPath.length < 3 then
      ({ s with currentPath := [], currentWord := [] },
       ⟨false, none, some "Word must be at least 3 letters"⟩)
    else
      let result := validateWord dict board s.currentPath
      if ¬ result.valid then
        ({ s with currentPath := [], currentWord := [] },
         ⟨false, none, result.reason⟩)
      else if result.word ∈ s.foundWords then
        ({ s with currentPath := [], currentWord := [] },
         ⟨false, some result.word, some "Already found"⟩)
      else
        ({ s with foundWords := s.foundWords ++ [result.word],
                  score := s.score + calculateWordScore result.word,
                  currentPath := [], currentWord := [] },
         ⟨true, some result.word, none⟩)

/-- `submitWordByText` (`store.ts`): dictionary, duplicate and board-formable
checks on the typed word; note that the failure branches return without
touching the state. -/
def submitWordByText (dict : List (List Char)) (word : List Char) (s : GameState) :
    GameState × SubmitResult :=
  match s.board with
  | none => (s, ⟨false, none, some "Game not initialized"⟩)
  | some board =>
    let upperWord := upper word
    if upperWord.length < 3 then
      (s, ⟨false, none, some "Word must be at least 3 letters"⟩)
    else if ¬ isWord dict upperWord then
      (s, ⟨false, some upperWord, some "Not in dictionary"⟩)
    else if upperWord ∈ s.foundWords then
      (s, ⟨false, some upperWord, some "Already found"⟩)
    else if ¬ canFormWord board upperWord then
      (s, ⟨false, some upperWord, some "Not on board"⟩)
    else
      ({ s with foundWords := s.foundWords ++ [upperWord],
                score := s.score + calculateWordScore upperWord,
                currentPath := [], currentWord := [] },
       ⟨true, some upperWord, none⟩)

/-- `clearSelection` (`store.ts`). -/
def clearSelection (s : GameState) : GameState :=
  { s with currentPath := [], currentWord := [] }

/-- `endGame` (`store.ts`): the session's `endRound`. -/
def endGame (s : GameState) : GameState :=
  { s with gameOver := true, currentPath := [], currentWord := [] }

/-- `resetGame` (`store.ts`). -/
def resetGame (_ : GameState) : GameState :=
  { board := none, foundWords := [], currentPath := [], currentWord := [],
    score := 0, gameOver := false, isLoading := true }

/-- `rotateBoard` (`store.ts`): rebuild the grid rotated 90° (the imperative
cell-by-cell fill is expressed as a comprehension over target cells; target
`(r', c')` receives source `(size-1-c', r')` for a right rotation and source
`(c', size-1-r')` for a left one, with missing sources becoming `''`), and
clear the current selection. -/
def rotateBoard (dir : Bool) (s : GameState) : GameState :=
  match s.board with
  | none => s
  | some board =>
    let size := board.size
    let newGrid : List (List String) :=
      (List.range size).map fun r' =>
        (List.range size).map fun c' =>
          if dir then
            (gridLookup board.grid ((size : Int) - 1 - c') (r' : Int)).getD ""
          else
            (gridLookup board.grid (c' : Int) ((size : Int) - 1 - r')).getD ""
    { s with board := some ⟨newGrid, size⟩, currentPath := [], currentWord := [] }

/-! ## Support lemmas -/

/-- The adjacency relation as the specification words it: both deltas in
`{-1, 0, 1}` and not both zero. -/
def specAdjacent (p q : Position) : Prop :=
  (q.row - p.row = -1 ∨ q.row - p.row = 0 ∨ q.row - p.row = 1) ∧
  (q.col - p.col = -1 ∨ q.col - p.col = 0 ∨ q.col - p.col = 1) ∧
  ¬(q.row - p.row = 0 ∧ q.col - p.col = 0)

instance (p q : Position) : Decidable (specAdjacent p q) := by
  unfold specAdjacent; infer_instance

lemma areAdjacent_iff (p q : Position) : areAdjacent p q = true ↔ specAdjacent p q := by
  simp only [areAdjacent, specAdjacent, Bool.and_eq_true, Bool.or_eq_true,
    decide_eq_true_eq]
  omega

lemma noRepeatsB_iff (path : List Position) : noRepeatsB path = true ↔ path.Nodup := by
  induction path with
  | nil => simp [noRepeatsB]
  | cons p rest ih => simp [noRepeatsB, ih, List.nodup_cons]

lemma adjChainB_iff (path : List Position) :
    adjChainB path = true ↔ path.Chain' (fun a b => areAdjacent a b = true) := by
  induction path with
  | nil => simp [adjChainB]
  | cons p rest ih =>
    cases rest with
    | nil => simp [adjChainB]
    | cons q rest' =>
      rw [adjChainB, List.chain'_cons, Bool.and_eq_true, ih]

lemma isValidPath_eq_true_iff (path : List Position) :
    isValidPath path = true ↔
      path ≠ [] ∧ path.Nodup ∧ path.Chain' (fun a b => areAdjacent a b = true) := by
  rw [isValidPath]
  split
  · simp_all [List.isEmpty_iff]
  · rename_i h
    have hne : path ≠ [] := by rintro rfl; simp at h
    simp only [Bool.and_eq_true, noRepeatsB_iff, adjChainB_iff]
    tauto

/-! ## C3: tiered word scoring -/

/-- C3: `calculateWordScore` is a pure function of word length following the
tiered table (length < 3 → 0, 3–4 → 1, 5 → 2, 6 → 3, 7 → 5, ≥ 8 → 11), with
the reference boundary values. -/
theorem calculateWordScore_spec :
    (∀ w₁ w₂ : List Char, w₁.length = w₂.length →
      calculateWordScore w₁ = calculateWordScore w₂) ∧
    (∀ w : List Char,
      (w.length < 3 → calculateWordScore w = 0) ∧
      ((w.length = 3 ∨ w.length = 4) → calculateWordScore w = 1) ∧
      (w.length = 5 → calculateWordScore w = 2) ∧
      (w.length = 6 → calculateWordScore w = 3) ∧
      (w.length = 7 → calculateWordScore w = 5) ∧
      (8 ≤ w.length → calculateWordScore w = 11)) ∧
    calculateWordScore "IT".data = 0 ∧ calculateWordScore "CAT".data = 1 ∧
    calculateWordScore "APPLE".data = 2 ∧ calculateWordScore "BANANA".data = 3 ∧
    calculateWordScore "DRAGONS".data = 5 ∧ calculateWordScore "STRAWBERRY".data = 11 := by
  refine ⟨fun w₁ w₂ h => ?_, fun w => ?_, by decide, by decide, by decide, by decide,
    by decide, by decide⟩
  · unfold calculateWordScore
    rw [h]
  · simp only [calculateWordScore]
    refine ⟨fun h => ?_, fun h => ?_, fun h => ?_, fun h => ?_, fun h => ?_, fun h => ?_⟩ <;>
      split_ifs <;> omega

/-- Witness for C3 at a concrete length-5 word. -/
theorem calculateWordScore_spec_witness : calculateWordScore "HOUSE".data = 2 :=
  (calculateWordScore_spec.2.1 "HOUSE".data).2.2.1 (by decide)

/-! ## C7: path validity -/

/-- C7: `isValidPath` rejects the empty path, accepts every single-position
path, and for longer paths holds exactly when all positions are pairwise
distinct and every consecutive pair is 8-adjacent (deltas in `{-1,0,1}`, not
both zero). -/
theorem isValidPath_spec :
    isValidPath [] = false ∧
    (∀ p : Position, isValidPath [p] = true) ∧
    (∀ path : List Position, 2 ≤ path.length →
      (isValidPath path = true ↔
        path.Pairwise (· ≠ ·) ∧ path.Chain' specAdjacent)) := by
  refine ⟨by decide, fun p => ?_, fun path h => ?_⟩
  · simp [isValidPath, noRepeatsB, adjChainB]
  · rw [isValidPath_eq_true_iff]
    have hne : path ≠ [] := by
      rintro rfl; simp at h
    have hchain : path.Chain' (fun a b => areAdjacent a b = true) ↔
        path.Chain' specAdjacent := by
      constructor <;> exact fun hc => hc.imp (fun {a b} hab => by
        first
          | exact (areAdjacent_iff a b).mp hab
          | exact (areAdjacent_iff a b).mpr hab)
    rw [hchain]
    constructor
    · rintro ⟨-, hnd, hc⟩
      exact ⟨hnd, hc⟩
    · rintro ⟨hpw, hc⟩
      exact ⟨hne, hpw, hc⟩

/-- Witness for C7 at a concrete two-step diagonal path. -/
theorem isValidPath_spec_witness :
    List.Pairwise (· ≠ ·) [(⟨0, 0⟩ : Position), ⟨1, 1⟩] ∧
      List.Chain' specAdjacent [(⟨0, 0⟩ : Position), ⟨1, 1⟩] :=
  (isValidPath_spec.2.2 [⟨0, 0⟩, ⟨1, 1⟩] (by decide)).mp (by decide)

/-! ## C10: the empty word is always "formable" -/

/-- C10: for every board with at least one cell, `canFormWord board ""` is
true: the target-exhausted check (`index == target.length`) precedes the
bounds and visited checks in the inner search, so the very first probe
already succeeds on the empty target. -/
theorem canFormWord_empty (board : BoggleBoard) (h : 1 ≤ board.size) :
    canFormWord board [] = true := by
  have h0 : (0 : Nat) ∈ List.range board.size := by
    rw [List.mem_range]; omega
  rw [canFormWord]
  simp only [List.any_eq_true]
  refine ⟨0, h0, ?_⟩
  refine ⟨0, h0, ?_⟩
  rw [canFormDfs]
  simp [upper]

/-- Witness for C10 on a concrete one-cell board. -/
theorem canFormWord_empty_witness : canFormWord ⟨[["A"]], 1⟩ [] = true :=
  canFormWord_empty ⟨[["A"]], 1⟩ (by decide)

/-! ## Well-formed boards and board-access lemmas -/

/-- The board invariant of the data model: `grid.length == size` and each row
has exactly `size` entries. -/
def WellFormed (board : BoggleBoard) : Prop :=
  board.grid.length = board.size ∧ ∀ row ∈ board.grid, row.length = board.size

/-- On a well-formed board the bounds-checked `getLetter` agrees with the raw
JS-style grid access used by `selectTile`'s restart case. -/
lemma getLetter_eq_gridLookup {board : BoggleBoard} (hwf : WellFormed board)
    (row col : Int) : getLetter board row col = gridLookup board.grid row col := by
  obtain ⟨hlen, hrows⟩ := hwf
  rw [getLetter, gridLookup]
  by_cases h1 : row < 0
  · rw [if_pos (Or.inl h1), if_pos h1]
  rw [if_neg h1]
  by_cases h2 : (board.size : Int) ≤ row
  · rw [if_pos (by tauto)]
    have hnone : board.grid.get? row.toNat = none := by
      rw [List.get?_eq_none]
      omega
    rw [hnone]
  have hlt : row.toNat < board.grid.length := by omega
  obtain ⟨r, hrow⟩ : ∃ r, board.grid.get? row.toNat = some r :=
    ⟨_, List.get?_eq_get hlt⟩
  have hrmem : r ∈ board.grid := List.get?_mem hrow
  by_cases h3 : col < 0
  · rw [if_pos (by tauto), hrow]
    simp [h3]
  by_cases h4 : (board.size : Int) ≤ col
  · rw [if_pos (by tauto), hrow]
    have : r.get? col.toNat = none := by
      rw [List.get?_eq_none, hrows r hrmem]
      omega
    simp [h3]
    rw [hrows r hrmem]
    omega
  · rw [if_neg (by tauto), hrow]
    simp [h3]

lemma position_eq_iff (p q : Position) : p = q ↔ p.row = q.row ∧ p.col = q.col := by
  cases p; cases q; simp

/-- The tile-equality test of `selectTile`'s `findIndex` checks exactly
position equality. -/
lemma selectTile_findIdx (path : List Position) (pos : Position) :
    (path.findIdx? fun p => p.row = pos.row ∧ p.col = pos.col) =
      path.findIdx? (fun p => decide (p = pos)) := by
  congr 1
  funext p
  simp [position_eq_iff]

lemma findIdx?_eq_last {path : List Position} {pos : Position} (hnd : path.Nodup)
    (hl : path.getLast? = some pos) :
    path.findIdx? (fun p => decide (p = pos)) = some (path.length - 1) := by
  have hne : path ≠ [] := by rintro rfl; simp at hl
  have hlen : 0 < path.length := List.length_pos.mpr hne
  have hlt : path.length - 1 < path.length := by omega
  rw [List.findIdx?_eq_some_iff_getElem]
  have hlast : path[path.length - 1] = pos := by
    have h1 := (List.getLast?_eq_getElem? path).symm.trans hl
    rw [List.getElem?_eq_getElem hlt] at h1
    exact Option.some.inj h1
  refine ⟨hlt, by simp [hlast], fun j hj => ?_⟩
  simp only [Bool.not_eq_true, decide_eq_false_iff_not]
  intro hEq
  have : j = path.length - 1 := (hnd.getElem_inj_iff).mp (hEq.trans hlast.symm)
  omega

lemma findIdx?_eq_none_of_not_mem {path : List Position} {pos : Position}
    (h : pos ∉ path) : path.findIdx? (fun p => decide (p = pos)) = none := by
  rw [List.findIdx?_eq_none_iff]
  intro x hx
  simp only [decide_eq_false_iff_not]
  rintro rfl
  exact h hx

lemma findIdx?_of_mem {path : List Position} {pos : Position} (h : pos ∈ path) :
    ∃ i, path.findIdx? (fun p => decide (p = pos)) = some i ∧
      ∃ hi : i < path.length, path[i] = pos := by
  have hsome : (path.findIdx? (fun p => decide (p = pos))).isSome := by
    rw [List.findIdx?_isSome, List.any_eq_true]
    exact ⟨pos, h, by simp⟩
  obtain ⟨i, hi⟩ := Option.isSome_iff_exists.mp hsome
  have hspec := List.findIdx?_eq_some_iff_getElem.mp hi
  obtain ⟨hlt, hp, -⟩ := hspec
  exact ⟨i, hi, hlt, by simpa using hp⟩

/-! ## C6: the `selectTile` sub-state machine -/

/-- C6: with the round active, `selectTile pos` is a four-case state machine:
tapping the last tile is a no-op; tapping an earlier tile truncates the path
to the prefix ending at it; tapping a tile not 8-adjacent to the last restarts
a single-element path; otherwise the tile is appended — and after every
mutation the displayed word equals `getWordFromPath board currentPath`. -/
theorem selectTile_spec (s : GameState) (board : BoggleBoard) (pos : Position)
    (hb : s.board = some board) (hwf : WellFormed board)
    (hgo : s.gameOver = false) (hnd : s.currentPath.Nodup) :
    (s.currentPath.getLast? = some pos → selectTile pos s = s) ∧
    (pos ∈ s.currentPath → s.currentPath.getLast? ≠ some pos →
      ∃ i, s.currentPath[i]? = some pos ∧
        (selectTile pos s).currentPath = s.currentPath.take (i + 1) ∧
        (selectTile pos s).currentWord =
          getWordFromPath board ((selectTile pos s).currentPath)) ∧
    (∀ lastP, s.currentPath.getLast? = some lastP → pos ∉ s.currentPath →
      ¬ specAdjacent lastP pos →
      (selectTile pos s).currentPath = [pos] ∧
      (selectTile pos s).currentWord = getWordFromPath board [pos]) ∧
    (pos ∉ s.currentPath →
      (s.currentPath = [] ∨
        ∃ lastP, s.currentPath.getLast? = some lastP ∧ specAdjacent lastP pos) →
      (selectTile pos s).currentPath = s.currentPath ++ [pos] ∧
      (selectTile pos s).currentWord =
        getWordFromPath board (s.currentPath ++ [pos])) := by
  refine ⟨fun hl => ?_, fun hmem hnl => ?_, fun lastP hl hnm hnadj => ?_,
    fun hnm hcase => ?_⟩
  · -- tapping the last tile again: no-op
    rw [selectTile, hb]
    simp only [hgo, Bool.false_eq_true, if_false]
    rw [selectTile_findIdx, findIdx?_eq_last hnd hl]
    simp
  · -- tapping an earlier tile: truncate
    obtain ⟨i, hfind, hlt, hget⟩ := findIdx?_of_mem hmem
    have hne_last : i ≠ s.currentPath.length - 1 := by
      intro hEq
      apply hnl
      rw [List.getLast?_eq_getElem?,
        List.getElem?_eq_getElem (show s.currentPath.length - 1 < s.currentPath.length by omega)]
      simp only [Option.some.injEq]
      exact hEq ▸ hget
    refine ⟨i, by rw [List.getElem?_eq_getElem hlt, hget], ?_⟩
    rw [selectTile, hb]
    simp only [hgo, Bool.false_eq_true, if_false]
    rw [selectTile_findIdx, hfind]
    simp only [hne_last, if_false]
    simp
  · -- restart: tapped tile not adjacent to the last
    have hne : s.currentPath ≠ [] := by intro h0; rw [h0] at hl; simp at hl
    have hlastP : lastP = s.currentPath.getLast hne := by
      have := (List.getLast?_eq_getLast s.currentPath hne).symm.trans hl
      exact (Option.some.inj this).symm
    have hlmem : s.currentPath.getLast hne ∈ s.currentPath := List.getLast_mem hne
    have hne_pos : ¬(pos.row = lastP.row ∧ pos.col = lastP.col) := by
      rw [← position_eq_iff]
      rintro rfl
      rw [hlastP] at hnm
      exact hnm hlmem
    rw [selectTile, hb]
    simp only [hgo, Bool.false_eq_true, if_false]
    rw [selectTile_findIdx, findIdx?_eq_none_of_not_mem hnm]
    rw [dif_pos hne]
    rw [if_pos ?hadj]
    case hadj =>
      rw [← hlastP]
      rw [specAdjacent] at hnadj
      omega
    refine ⟨rfl, ?_⟩
    rw [getWordFromPath]
    simp only [List.map_cons, List.map_nil, List.flatten_cons, List.flatten_nil,
      List.append_nil]
    rw [getLetter_eq_gridLookup hwf]
  · -- append: fresh tile, adjacent to the last (or empty path)
    rw [selectTile, hb]
    simp only [hgo, Bool.false_eq_true, if_false]
    rw [selectTile_findIdx, findIdx?_eq_none_of_not_mem hnm]
    rcases hcase with hnil | ⟨lastP, hl, hadj⟩
    · rw [dif_neg (by simp [hnil])]
      exact ⟨rfl, rfl⟩
    · have hne : s.currentPath ≠ [] := by intro h0; rw [h0] at hl; simp at hl
      have hlastP : lastP = s.currentPath.getLast hne := by
        have := (List.getLast?_eq_getLast s.currentPath hne).symm.trans hl
        exact (Option.some.inj this).symm
      rw [dif_pos hne]
      rw [if_neg ?hnadj]
      case hnadj =>
        rw [← hlastP]
        rw [specAdjacent] at hadj
        omega
      exact ⟨rfl, rfl⟩

/-- Witness for C6: on a fresh 2×2 board, tapping `(0,0)` starts the path
there and the displayed word tracks `getWordFromPath`. -/
theorem selectTile_spec_witness :
    (selectTile ⟨0, 0⟩ (initState ⟨[["C", "A"], ["T", "S"]], 2⟩)).currentPath =
        [⟨0, 0⟩] ∧
      (selectTile ⟨0, 0⟩ (initState ⟨[["C", "A"], ["T", "S"]], 2⟩)).currentWord =
        getWordFromPath ⟨[["C", "A"], ["T", "S"]], 2⟩ [⟨0, 0⟩] := by
  have h := (selectTile_spec (initState ⟨[["C", "A"], ["T", "S"]], 2⟩)
      ⟨[["C", "A"], ["T", "S"]], 2⟩ ⟨0, 0⟩ rfl
      (by constructor <;> decide) rfl (by decide)).2.2.2
      (by decide) (Or.inl rfl)
  simpa using h

/-! ## C5: which submissions are rejected as too short

The claim that the too-short rejection tracks the resolved word's length is
refuted by a two-tile path through the `Qu` tile (word `QUA`, length 3, still
rejected because `submitWord` checks the tile count first); the amended
statement characterises the rejection exactly. -/

/-- C5 counterexample: the path `[(0,0), (0,1)]` on a board with a `Qu` tile at
`(0,0)` resolves to the 3-letter word `QUA`, yet `submitWord` fails with the
too-short reason. -/
theorem submitWord_tooShort_counterexample :
    (getWordFromPath ⟨[["Qu", "A"], ["B", "C"]], 2⟩ [⟨0, 0⟩, ⟨0, 1⟩]).length = 3 ∧
    (submitWord ["qua".data]
        { initState ⟨[["Qu", "A"], ["B", "C"]], 2⟩ with
            currentPath := [⟨0, 0⟩, ⟨0, 1⟩], currentWord := "QUA".data }).2.success =
      false ∧
    (submitWord ["qua".data]
        { initState ⟨[["Qu", "A"], ["B", "C"]], 2⟩ with
            currentPath := [⟨0, 0⟩, ⟨0, 1⟩], currentWord := "QUA".data }).2.reason =
      some "Word must be at least 3 letters" := by
  decide

lemma validateWord_reason_tooShort (dict : List (List Char)) (board : BoggleBoard)
    (path : List Position) :
    ((validateWord dict board path).reason = some "Word must be at least 3 letters") ↔
      (path.length < 3 ∨
        (isValidPath path = true ∧ (getWordFromPath board path).length < 3)) := by
  rw [validateWord]
  by_cases h1 : path.length < 3
  · rw [if_pos h1]
    simp [h1]
  rw [if_neg h1]
  by_cases h2 : isValidPath path = true
  · rw [if_neg (not_not_intro h2)]
    dsimp only
    by_cases h3 : (getWordFromPath board path).length < 3
    · rw [if_pos h3]
      simp [h2, h3]
    rw [if_neg h3]
    by_cases h4 : isWord dict (getWordFromPath board path) = true
    · rw [if_neg (not_not_intro h4)]
      constructor
      · intro hcontra
        simp at hcontra
      · intro hc
        rcases hc with hc | ⟨-, hshort⟩
        · exact absurd hc h1
        · exact absurd hshort h3
    · rw [if_pos h4]
      constructor
      · intro hcontra
        exact absurd (Option.some.inj hcontra) (by decide)
      · intro hc
        rcases hc with hc | ⟨-, hshort⟩
        · exact absurd hc h1
        · exact absurd hshort h3
  · rw [if_pos h2]
    constructor
    · intro hcontra
      exact absurd (Option.some.inj hcontra) (by decide)
    · intro hc
      rcases hc with hc | ⟨h2x, -⟩
      · exact absurd hc h1
      · exact absurd h2x h2

lemma validateWord_valid_iff (dict : List (List Char)) (board : BoggleBoard)
    (path : List Position) :
    (validateWord dict board path).valid = true ↔
      (3 ≤ path.length ∧ isValidPath path = true ∧
        3 ≤ (getWordFromPath board path).length ∧
        isWord dict (getWordFromPath board path) = true) := by
  rw [validateWord]
  by_cases h1 : path.length < 3
  · rw [if_pos h1]
    simp only [show (false = true) = False by simp]
    constructor
    · intro hc
      exact hc.elim
    · intro hc
      omega
  rw [if_neg h1]
  by_cases h2 : isValidPath path = true
  · rw [if_neg (not_not_intro h2)]
    dsimp only
    by_cases h3 : (getWordFromPath board path).length < 3
    · rw [if_pos h3]
      constructor
      · intro hc
        simp at hc
      · intro hc
        omega
    rw [if_neg h3]
    by_cases h4 : isWord dict (getWordFromPath board path) = true
    · rw [if_neg (not_not_intro h4)]
      constructor
      · intro _
        exact ⟨by omega, h2, by omega, h4⟩
      · intro _
        rfl
    · rw [if_pos h4]
      constructor
      · intro hc
        simp at hc
      · intro hc
        exact absurd hc.2.2.2 h4
  · rw [if_pos h2]
    constructor
    · intro hc
      simp at hc
    · intro hc
      exact absurd hc.2.1 h2

/-- C5 (amended): with a board present, `submitWord` fails with the too-short
reason exactly when the current path has fewer than 3 tiles, or the path is
valid and its resolved word has length < 3. -/
theorem submitWord_tooShort_iff (dict : List (List Char)) (s : GameState)
    (board : BoggleBoard) (hb : s.board = some board) :
    (submitWord dict s).2.reason = some "Word must be at least 3 letters" ↔
      (s.currentPath.length < 3 ∨
        (isValidPath s.currentPath = true ∧
          (getWordFromPath board s.currentPath).length < 3)) := by
  rw [submitWord, hb]
  dsimp only
  by_cases h1 : s.currentPath.length < 3
  · rw [if_pos h1]
    simp [h1]
  rw [if_neg h1]
  by_cases h2 : (validateWord dict board s.currentPath).valid = true
  · rw [if_neg (not_not_intro h2)]
    have hv := (validateWord_valid_iff dict board s.currentPath).mp h2
    by_cases h3 : (validateWord dict board s.currentPath).word ∈ s.foundWords
    · rw [if_pos h3]
      dsimp only
      constructor
      · intro hcontra
        exact absurd (Option.some.inj hcontra) (by decide)
      · intro hc
        rcases hc with hc | ⟨-, hshort⟩
        · exact absurd hc h1
        · omega
    · rw [if_neg h3]
      dsimp only
      constructor
      · intro hcontra
        simp at hcontra
      · intro hc
        rcases hc with hc | ⟨-, hshort⟩
        · exact absurd hc h1
        · omega
  · rw [if_pos h2]
    dsimp only
    exact validateWord_reason_tooShort dict board s.currentPath

/-- Witness for C5 at a concrete one-tile path: rejected as too short. -/
theorem submitWord_tooShort_iff_witness :
    (submitWord ["cat".data]
        { initState ⟨[["C", "A"], ["T", "S"]], 2⟩ with
            currentPath := [⟨0, 0⟩], currentWord := "C".data }).2.reason =
      some "Word must be at least 3 letters" :=
  (submitWord_tooShort_iff ["cat".data] _ ⟨[["C", "A"], ["T", "S"]], 2⟩ rfl).mpr
    (Or.inl (by decide))

/-! ## C4: state effects of failing submissions

The claim that every failing submission clears the in-progress path is refuted
by `submitWordByText`, whose failure branches return without touching the
state at all; the amended statement separates the two entry points.  Neither
entry point mutates `score` or `foundWords` on failure. -/

/-- C4 counterexample: a failing `submitWordByText` (word too short) leaves the
nonempty in-progress path in place instead of clearing it. -/
theorem submit_failure_counterexample :
    (submitWordByText ["cat".data] "AB".data
        { initState ⟨[["C", "A"], ["T", "S"]], 2⟩ with
            currentPath := [⟨0, 0⟩], currentWord := "C".data }).2.success = false ∧
    (submitWordByText ["cat".data] "AB".data
        { initState ⟨[["C", "A"], ["T", "S"]], 2⟩ with
            currentPath := [⟨0, 0⟩], currentWord := "C".data }).1.currentPath =
      [⟨0, 0⟩] := by
  decide

/-- C4 (amended): every failing `submitWord` clears the in-progress path and
leaves `score` and `foundWords` exactly as they were; every failing
`submitWordByText` leaves the whole state unchanged (in particular it does not
clear the path, and `score`/`foundWords` are untouched). -/
theorem submit_failure_state (dict : List (List Char)) (s : GameState) :
    ((submitWord dict s).2.success = false →
      (submitWord dict s).1.currentPath = [] ∧
      (submitWord dict s).1.currentWord = [] ∧
      (submitWord dict s).1.score = s.score ∧
      (submitWord dict s).1.foundWords = s.foundWords) ∧
    (∀ w, (submitWordByText dict w s).2.success = false →
      (submitWordByText dict w s).1 = s) := by
  constructor
  · cases hb : s.board with
    | none => intro hfail; simp [submitWord, hb]
    | some board =>
      simp only [submitWord, hb]
      split_ifs <;> intro hfail <;> simp_all
  · intro w
    cases hb : s.board with
    | none => intro hfail; simp [submitWordByText, hb]
    | some board =>
      simp only [submitWordByText, hb]
      split_ifs <;> intro hfail <;> simp_all

/-- Witness for C4: a failing dictionary check through `submitWord` clears the
path and preserves score and found words. -/
theorem submit_failure_state_witness :
    (submitWord []
        { initState ⟨[["C", "A"], ["T", "S"]], 2⟩ with
            currentPath := [⟨0, 0⟩, ⟨0, 1⟩, ⟨1, 0⟩],
            currentWord := "CAT".data }).1.currentPath = [] ∧
    (submitWord []
        { initState ⟨[["C", "A"], ["T", "S"]], 2⟩ with
            currentPath := [⟨0, 0⟩, ⟨0, 1⟩, ⟨1, 0⟩],
            currentWord := "CAT".data }).1.score = 0 := by
  have h := (submit_failure_state []
      { initState ⟨[["C", "A"], ["T", "S"]], 2⟩ with
          currentPath := [⟨0, 0⟩, ⟨0, 1⟩, ⟨1, 0⟩], currentWord := "CAT".data }).1
      (by decide)
  exact ⟨h.1, h.2.2.1⟩

/-! ## C2: mutating calls after `endGame`

The round-lifecycle claim fails on the code: the store has no
round-not-active reason anywhere, `selectTile` after `endGame` is a silent
no-op returning nothing, and — decisively — `submitWordByText` performs no
`gameOver` check at all, so it still accepts and scores a word after the
round has ended (the repository's own design plan requires the submit actions
to fail once `gameOver` is set, so this is a code bug, not spec fiction). -/

/-- C2 failing run: after `endGame`, `submitWordByText "cat"` still succeeds,
scores the word and appends it to `foundWords`, even though the round is over
— contradicting the specified freeze of `foundWords`/`score`. -/
theorem submitWordByText_after_endGame :
    (submitWordByText ["cat".data] "cat".data
        (endGame (initState ⟨[["C", "A"], ["T", "S"]], 2⟩))).2.success = true ∧
    (submitWordByText ["cat".data] "cat".data
        (endGame (initState ⟨[["C", "A"], ["T", "S"]], 2⟩))).1.score = 1 ∧
    (submitWordByText ["cat".data] "cat".data
        (endGame (initState ⟨[["C", "A"], ["T", "S"]], 2⟩))).1.foundWords =
      ["CAT".data] ∧
    (submitWordByText ["cat".data] "cat".data
        (endGame (initState ⟨[["C", "A"], ["T", "S"]], 2⟩))).1.gameOver = true := by
  decide

/-! ## The store's action machine (for the invariant claims) -/

/-- One store action (the mutating calls available after `initGame`). -/
inductive Act where
  | select (pos : Position)
  | deselect
  | submit
  | submitText (word : List Char)
  | clear
  | finish
  | rotate (dir : Bool)

/-- Apply one action to the store state (submit results are discarded). -/
def step (dict : List (List Char)) (s : GameState) : Act → GameState
  | .select pos => selectTile pos s
  | .deselect => deselectTile s
  | .submit => (submitWord dict s).1
  | .submitText w => (submitWordByText dict w s).1
  | .clear => clearSelection s
  | .finish => endGame s
  | .rotate d => rotateBoard d s

/-- Run a sequence of store actions. -/
def run (dict : List (List Char)) (s : GameState) (acts : List Act) : GameState :=
  acts.foldl (step dict) s

/-- The score/found-words consistency invariant of C8. -/
def ScoreInv (s : GameState) : Prop :=
  s.foundWords.Nodup ∧ s.score = calculateTotalScore s.foundWords

lemma calculateTotalScore_append (ws : List (List Char)) (w : List Char) :
    calculateTotalScore (ws ++ [w]) = calculateTotalScore ws + calculateWordScore w := by
  rw [calculateTotalScore, calculateTotalScore, List.foldl_append]
  rfl

lemma selectTile_keeps_words (pos : Position) (s : GameState) :
    (selectTile pos s).foundWords = s.foundWords ∧
      (selectTile pos s).score = s.score := by
  rw [selectTile]
  cases s.board with
  | none => exact ⟨rfl, rfl⟩
  | some board =>
    dsimp only
    by_cases hgo : s.gameOver = true
    · rw [if_pos hgo]
      exact ⟨rfl, rfl⟩
    rw [if_neg hgo]
    cases s.currentPath.findIdx? (fun p => p.row = pos.row ∧ p.col = pos.col) with
    | some i =>
      dsimp only
      by_cases hi : i = s.currentPath.length - 1
      · rw [if_pos hi]
        exact ⟨rfl, rfl⟩
      · rw [if_neg hi]
        exact ⟨rfl, rfl⟩
    | none =>
      dsimp only
      by_cases hne : s.currentPath ≠ []
      · rw [dif_pos hne]
        split_ifs <;> exact ⟨rfl, rfl⟩
      · rw [dif_neg hne]
        exact ⟨rfl, rfl⟩

lemma deselectTile_keeps_words (s : GameState) :
    (deselectTile s).foundWords = s.foundWords ∧ (deselectTile s).score = s.score := by
  rw [deselectTile]
  cases s.board with
  | none => exact ⟨rfl, rfl⟩
  | some board =>
    dsimp only
    split_ifs <;> exact ⟨rfl, rfl⟩

lemma scoreInv_submitWord (dict : List (List Char)) (s : GameState)
    (h : ScoreInv s) : ScoreInv ((submitWord dict s).1) := by
  rw [submitWord]
  cases s.board with
  | none => exact h
  | some board =>
    dsimp only
    by_cases h1 : s.currentPath.length < 3
    · rw [if_pos h1]
      exact h
    rw [if_neg h1]
    by_cases h2 : (validateWord dict board s.currentPath).valid = true
    · rw [if_neg (not_not_intro h2)]
      by_cases h3 : (validateWord dict board s.currentPath).word ∈ s.foundWords
      · rw [if_pos h3]
        exact h
      · rw [if_neg h3]
        obtain ⟨hnd, hsc⟩ := h
        constructor
        · show (s.foundWords ++ [_]).Nodup
          simp [List.nodup_append, hnd, h3]
        · show s.score + _ = calculateTotalScore (s.foundWords ++ [_])
          rw [calculateTotalScore_append, hsc]
    · rw [if_pos h2]
      exact h

lemma scoreInv_submitWordByText (dict : List (List Char)) (w : List Char)
    (s : GameState) (h : ScoreInv s) : ScoreInv ((submitWordByText dict w s).1) := by
  rw [submitWordByText]
  cases s.board with
  | none => exact h
  | some board =>
    dsimp only
    by_cases h1 : (upper w).length < 3
    · rw [if_pos h1]
      exact h
    rw [if_neg h1]
    by_cases h2 : isWord dict (upper w) = true
    · rw [if_neg (not_not_intro h2)]
      by_cases h3 : upper w ∈ s.foundWords
      · rw [if_pos h3]
        exact h
      · rw [if_neg h3]
        by_cases h4 : canFormWord board (upper w) = true
        · rw [if_neg (not_not_intro h4)]
          obtain ⟨hnd, hsc⟩ := h
          constructor
          · show (s.foundWords ++ [_]).Nodup
            simp [List.nodup_append, hnd, h3]
          · show s.score + _ = calculateTotalScore (s.foundWords ++ [_])
            rw [calculateTotalScore_append, hsc]
        · rw [if_pos h4]
          exact h
    · rw [if_pos h2]
      exact h

lemma rotateBoard_keeps_words (d : Bool) (s : GameState) :
    (rotateBoard d s).foundWords = s.foundWords ∧ (rotateBoard d s).score = s.score := by
  rw [rotateBoard]
  cases s.board with
  | none => exact ⟨rfl, rfl⟩
  | some board => exact ⟨rfl, rfl⟩

lemma scoreInv_step (dict : List (List Char)) (s : GameState) (a : Act)
    (h : ScoreInv s) : ScoreInv (step dict s a) := by
  cases a with
  | select pos =>
    obtain ⟨h1, h2⟩ := selectTile_keeps_words pos s
    exact ⟨h1 ▸ h.1, by rw [step, h2, h1]; exact h.2⟩
  | deselect =>
    obtain ⟨h1, h2⟩ := deselectTile_keeps_words s
    exact ⟨h1 ▸ h.1, by rw [step, h2, h1]; exact h.2⟩
  | submit => exact scoreInv_submitWord dict s h
  | submitText w => exact scoreInv_submitWordByText dict w s h
  | clear => exact h
  | finish => exact h
  | rotate d =>
    obtain ⟨h1, h2⟩ := rotateBoard_keeps_words d s
    exact ⟨h1 ▸ h.1, by rw [step, h2, h1]; exact h.2⟩

/-! ## C8: score/found-words consistency invariant -/

/-- C8: from the state `initGame` produces, every sequence of store actions
keeps `foundWords` duplicate-free and `score` equal to
`calculateTotalScore foundWords`. -/
theorem store_score_invariant (dict : List (List Char)) (board : BoggleBoard)
    (acts : List Act) :
    (run dict (initState board) acts).foundWords.Nodup ∧
      (run dict (initState board) acts).score =
        calculateTotalScore (run dict (initState board) acts).foundWords := by
  suffices h : ∀ s, ScoreInv s → ScoreInv (run dict s acts) from
    h _ ⟨by simp [initState], by simp [initState, calculateTotalScore]⟩
  induction acts with
  | nil => exact fun s h => h
  | cons a rest ih => exact fun s h => ih _ (scoreInv_step dict s a h)

/-! ## C9: path validity invariant -/

/-- The path validity invariant of C9. -/
def PathInv (s : GameState) : Prop :=
  s.currentPath = [] ∨ isValidPath s.currentPath = true

lemma pathInv_of_valid_nonempty {s : GameState} (h : PathInv s)
    (hne : s.currentPath ≠ []) : isValidPath s.currentPath = true := by
  rcases h with h | h
  · exact absurd h hne
  · exact h

lemma isValidPath_singleton (p : Position) : isValidPath [p] = true := by
  simp [isValidPath, noRepeatsB, adjChainB]

lemma pathInv_selectTile (pos : Position) (s : GameState) (h : PathInv s) :
    PathInv (selectTile pos s) := by
  rw [selectTile]
  cases hb : s.board with
  | none => exact h
  | some board =>
    dsimp only
    by_cases hgo : s.gameOver = true
    · rw [if_pos hgo]
      exact h
    rw [if_neg hgo]
    rw [selectTile_findIdx]
    cases hf : s.currentPath.findIdx? (fun p => decide (p = pos)) with
    | some i =>
      dsimp only
      by_cases hi : i = s.currentPath.length - 1
      · rw [if_pos hi]
        exact h
      · rw [if_neg hi]
        right
        obtain ⟨hlt, -, -⟩ := List.findIdx?_eq_some_iff_getElem.mp hf
        have hne : s.currentPath ≠ [] := by
          intro h0
          rw [h0] at hlt
          simp at hlt
        have hval := pathInv_of_valid_nonempty h hne
        rw [isValidPath_eq_true_iff] at hval ⊢
        obtain ⟨-, hnd, hch⟩ := hval
        refine ⟨?_, hnd.sublist (List.take_sublist _ _), hch.take _⟩
        intro h0
        rw [List.take_eq_nil_iff] at h0
        rcases h0 with h0 | h0
        · omega
        · exact hne h0
    | none =>
      dsimp only
      have hpos : pos ∉ s.currentPath := by
        intro hmem
        rw [List.findIdx?_eq_none_iff] at hf
        have := hf pos hmem
        simp at this
      by_cases hne : s.currentPath ≠ []
      · rw [dif_pos hne]
        by_cases hadj : (pos.row - (s.currentPath.getLast hne).row).natAbs ≤ 1 ∧
            (pos.col - (s.currentPath.getLast hne).col).natAbs ≤ 1
        · rw [if_neg (not_not_intro hadj)]
          right
          have hval := pathInv_of_valid_nonempty h hne
          rw [isValidPath_eq_true_iff] at hval ⊢
          obtain ⟨-, hnd, hch⟩ := hval
          have hlast_mem : s.currentPath.getLast hne ∈ s.currentPath :=
            List.getLast_mem hne
          have hne_pos : pos ≠ s.currentPath.getLast hne := fun hEq =>
            hpos (hEq ▸ hlast_mem)
          refine ⟨by simp, by simp [List.nodup_append, hnd, hpos], ?_⟩
          rw [List.chain'_append]
          refine ⟨hch, List.chain'_singleton _, ?_⟩
          intro x hx y hy
          simp only [List.head?_cons, Option.mem_def, Option.some.injEq] at hy
          subst hy
          rw [List.getLast?_eq_getLast _ hne, Option.mem_def, Option.some.injEq] at hx
          subst hx
          rw [areAdjacent_iff, specAdjacent]
          have hcomp : ¬(pos.row = (s.currentPath.getLast hne).row ∧
              pos.col = (s.currentPath.getLast hne).col) := fun hc =>
            hne_pos ((position_eq_iff _ _).mpr hc)
          refine ⟨by omega, by omega, by omega⟩
        · rw [if_pos hadj]
          right
          exact isValidPath_singleton pos
      · rw [dif_neg hne]
        right
        have h0 : s.currentPath = [] := by
          push_neg at hne
          exact hne
        rw [h0]
        exact isValidPath_singleton pos

lemma pathInv_deselectTile (s : GameState) (h : PathInv s) :
    PathInv (deselectTile s) := by
  rw [deselectTile]
  cases s.board with
  | none => exact h
  | some board =>
    dsimp only
    by_cases hlen : s.currentPath.length = 0
    · rw [if_pos hlen]
      exact h
    rw [if_neg hlen]
    have hne : s.currentPath ≠ [] := by
      intro h0
      rw [h0] at hlen
      simp at hlen
    have hval := pathInv_of_valid_nonempty h hne
    by_cases hdk : s.currentPath.dropLast = []
    · left
      exact hdk
    · right
      rw [isValidPath_eq_true_iff] at hval ⊢
      obtain ⟨-, hnd, hch⟩ := hval
      exact ⟨hdk, hnd.sublist (List.dropLast_sublist _),
        hch.prefix (List.dropLast_prefix _)⟩

lemma pathInv_submitWord (dict : List (List Char)) (s : GameState) :
    PathInv ((submitWord dict s).1) := by
  rw [submitWord]
  cases s.board with
  | none => left; rfl
  | some board =>
    dsimp only
    by_cases h1 : s.currentPath.length < 3
    · rw [if_pos h1]
      left; rfl
    rw [if_neg h1]
    by_cases h2 : (validateWord dict board s.currentPath).valid = true
    · rw [if_neg (not_not_intro h2)]
      by_cases h3 : (validateWord dict board s.currentPath).word ∈ s.foundWords
      · rw [if_pos h3]
        left; rfl
      · rw [if_neg h3]
        left; rfl
    · rw [if_pos h2]
      left; rfl

lemma pathInv_submitWordByText (dict : List (List Char)) (w : List Char)
    (s : GameState) (h : PathInv s) : PathInv ((submitWordByText dict w s).1) := by
  rw [submitWordByText]
  cases hb : s.board with
  | none => exact h
  | some board =>
    dsimp only
    by_cases h1 : (upper w).length < 3
    · rw [if_pos h1]
      exact h
    rw [if_neg h1]
    by_cases h2 : isWord dict (upper w) = true
    · rw [if_neg (not_not_intro h2)]
      by_cases h3 : upper w ∈ s.foundWords
      · rw [if_pos h3]
        exact h
      · rw [if_neg h3]
        by_cases h4 : canFormWord board (upper w) = true
        · rw [if_neg (not_not_intro h4)]
          left; rfl
        · rw [if_pos h4]
          exact h
    · rw [if_pos h2]
      exact h

lemma pathInv_step (dict : List (List Char)) (s : GameState) (a : Act)
    (h : PathInv s) : PathInv (step dict s a) := by
  cases a with
  | select pos => exact pathInv_selectTile pos s h
  | deselect => exact pathInv_deselectTile s h
  | submit => exact pathInv_submitWord dict s
  | submitText w => exact pathInv_submitWordByText dict w s h
  | clear => left; rfl
  | finish => left; rfl
  | rotate d =>
    rw [step, rotateBoard]
    cases s.board with
    | none => exact h
    | some board => left; rfl

/-- C9: from the initial state (empty path), every sequence of store actions
leaves `currentPath` either empty or a valid path (`isValidPath`): no action
ever produces a repeated position or a non-adjacent consecutive step. -/
theorem store_path_invariant (dict : List (List Char)) (board : BoggleBoard)
    (acts : List Act) :
    (run dict (initState board) acts).currentPath = [] ∨
      isValidPath ((run dict (initState board) acts).currentPath) = true := by
  suffices h : ∀ s, PathInv s → PathInv (run dict s acts) from
    h _ (Or.inl rfl)
  induction acts with
  | nil => exact fun s h => h
  | cons a rest ih => exact fun s h => ih _ (pathInv_step dict s a h)

/-! ## C1 groundwork: uppercase, trie and fold lemmas -/

lemma toNat_ofNat_of_valid (n : Nat) (h : Nat.isValidChar n) :
    (Char.ofNat n).toNat = n := by
  rw [Char.ofNat, dif_pos h]
  rfl

lemma upperChar_idem (c : Char) : upperChar (upperChar c) = upperChar c := by
  simp only [upperChar]
  by_cases h : 97 ≤ c.toNat ∧ c.toNat ≤ 122
  · rw [if_pos h]
    have hv : Nat.isValidChar (c.toNat - 32) := Or.inl (by omega)
    have ht : (Char.ofNat (c.toNat - 32)).toNat = c.toNat - 32 :=
      toNat_ofNat_of_valid _ hv
    rw [if_neg (by rw [ht]; omega)]
  · rw [if_neg h, if_neg h]

lemma upper_idem (s : List Char) : upper (upper s) = upper s := by
  simp only [upper, List.map_map]
  exact List.map_congr_left fun c _ => upperChar_idem c

lemma upper_append (s t : List Char) : upper (s ++ t) = upper s ++ upper t :=
  List.map_append _ _ _

lemma upper_prefix_mono {u v : List Char} (h : u <+: v) : upper u <+: upper v :=
  h.map upperChar

lemma lookupChild_updateChild_self (c : Char) (x : TrieNode)
    (cs : List (Char × TrieNode)) (h : (lookupChild c cs).isSome) :
    lookupChild c (updateChild c x cs) = some x := by
  induction cs with
  | nil => simp [lookupChild] at h
  | cons hd tl ih =>
    obtain ⟨d, t⟩ := hd
    by_cases hdc : d = c
    · rw [updateChild, if_pos hdc, lookupChild, if_pos hdc]
    · rw [updateChild, if_neg hdc, lookupChild, if_neg hdc]
      rw [lookupChild, if_neg hdc] at h
      exact ih h

lemma lookupChild_updateChild_other {c e : Char} (hne : e ≠ c) (x : TrieNode)
    (cs : List (Char × TrieNode)) :
    lookupChild e (updateChild c x cs) = lookupChild e cs := by
  induction cs with
  | nil => rfl
  | cons hd tl ih =>
    obtain ⟨d, t⟩ := hd
    by_cases hdc : d = c
    · subst hdc
      rw [updateChild, if_pos rfl, lookupChild, lookupChild,
        if_neg (fun h => hne h.symm), if_neg (fun h => hne h.symm)]
    · rw [updateChild, if_neg hdc, lookupChild, lookupChild]
      by_cases hde : d = e
      · rw [if_pos hde, if_pos hde]
      · rw [if_neg hde, if_neg hde]
        exact ih

lemma prefixWalk_insertChars (v : List Char) :
    ∀ (t : TrieNode) (u : List Char), prefixWalk t u = true →
      prefixWalk (insertChars t v) u = true := by
  intro t u
  induction u generalizing t v with
  | nil =>
    intro _
    cases insertChars t v with
    | mk b cs => rfl
  | cons c u ih =>
    intro h
    obtain ⟨b, cs⟩ := t
    rw [prefixWalk] at h
    cases hc : lookupChild c cs with
    | none => rw [hc] at h; exact absurd h (by simp)
    | some child =>
      rw [hc] at h
      cases v with
      | nil =>
        rw [insertChars, prefixWalk, hc]
        exact h
      | cons d v =>
        rw [insertChars]
        cases hd : lookupChild d cs with
        | some child2 =>
          dsimp only
          by_cases hcd : c = d
          · subst hcd
            have : child2 = child := by
              rw [hc] at hd
              exact (Option.some.inj hd).symm
            subst this
            rw [prefixWalk,
              lookupChild_updateChild_self c _ cs (by rw [hc]; rfl)]
            exact ih _ _ h
          · rw [prefixWalk, lookupChild_updateChild_other hcd _ cs, hc]
            exact h
        | none =>
          dsimp only
          have hcd : c ≠ d := by
            intro hEq
            rw [hEq, hd] at hc
            exact Option.noConfusion hc
          rw [prefixWalk, lookupChild, if_neg (fun hEq => hcd hEq.symm), hc]
          exact h

lemma prefixWalk_insertChars_of_prefix (u : List Char) :
    ∀ (t : TrieNode) (v : List Char), u <+: v →
      prefixWalk (insertChars t v) u = true := by
  induction u with
  | nil =>
    intro t v _
    cases insertChars t v with
    | mk b cs => rfl
  | cons c u ih =>
    intro t v h
    obtain ⟨b, cs⟩ := t
    obtain ⟨v2, hv⟩ : ∃ v2, v = c :: v2 := by
      obtain ⟨tail, htail⟩ := h
      exact ⟨u ++ tail, by rw [← htail]; rfl⟩
    subst hv
    have hu : u <+: v2 := (List.cons_prefix_cons.mp h).2
    rw [insertChars]
    cases hd : lookupChild c cs with
    | some child =>
      dsimp only
      rw [prefixWalk, lookupChild_updateChild_self c _ cs (by rw [hd]; rfl)]
      exact ih _ _ hu
    | none =>
      dsimp only
      rw [prefixWalk, lookupChild, if_pos rfl]
      exact ih _ _ hu

lemma prefixWalk_trieOf {dict : List (List Char)} {u wd : List Char}
    (hwd : wd ∈ dict) (hpre : u <+: upper (upper wd)) :
    prefixWalk (trieOf dict) u = true := by
  rw [trieOf]
  suffices h : ∀ (l : List (List Char)) (t : TrieNode),
      ((∃ w ∈ l, u <+: upper (upper w)) ∨ prefixWalk t u = true) →
      prefixWalk (l.foldl (fun t word => insertWord t (upper word)) t) u = true from
    h dict createNode (Or.inl ⟨wd, hwd, hpre⟩)
  intro l
  induction l with
  | nil =>
    intro t h
    rcases h with ⟨w, hw, -⟩ | h
    · exact absurd hw (List.not_mem_nil w)
    · exact h
  | cons w l ih =>
    intro t h
    rw [List.foldl_cons]
    apply ih
    rcases h with ⟨w2, hw2, hpre2⟩ | h
    · rcases List.mem_cons.mp hw2 with rfl | hmem
      · right
        rw [insertWord]
        exact prefixWalk_insertChars_of_prefix u t _ hpre2
      · exact Or.inl ⟨w2, hmem, hpre2⟩
    · right
      rw [insertWord]
      exact prefixWalk_insertChars _ t u h

/-- Key pruning fact: any uppercase-prefix of a dictionary word passes the trie
prefix check. -/
lemma isPrefixB_of_prefix_isWord {dict : List (List Char)} {u w : List Char}
    (hw : isWord dict w = true) (hpre : u <+: w) :
    isPrefixB (trieOf dict) u = true := by
  rw [isWord, decide_eq_true_eq, List.mem_map] at hw
  obtain ⟨wd, hwd, hupper⟩ := hw
  rw [isPrefixB]
  apply prefixWalk_trieOf hwd
  rw [upper_idem, hupper]
  exact upper_prefix_mono hpre

lemma mem_foldr_union {α β : Type} [DecidableEq β] (l : List α) (f : α → Finset β)
    (init : Finset β) (w : β) :
    (w ∈ l.foldr (fun a acc => f a ∪ acc) init) ↔
      ((∃ a ∈ l, w ∈ f a) ∨ w ∈ init) := by
  induction l with
  | nil => simp
  | cons a l ih =>
    rw [List.foldr_cons, Finset.mem_union, ih]
    constructor
    · rintro (h | ⟨b, hb, hbf⟩ | h)
      · exact Or.inl ⟨a, List.mem_cons_self a l, h⟩
      · exact Or.inl ⟨b, List.mem_cons_of_mem a hb, hbf⟩
      · exact Or.inr h
    · rintro (⟨b, hb, hbf⟩ | h)
      · rcases List.mem_cons.mp hb with rfl | hb2
        · exact Or.inl hbf
        · exact Or.inr (Or.inl ⟨b, hb2, hbf⟩)
      · exact Or.inr (Or.inr h)

/-! ## C1 groundwork: paths as the DFS explores them -/

/-- The position lies on the board (spec data model: `0 <= row,col < size`). -/
def onBoard (board : BoggleBoard) (pos : Position) : Prop :=
  0 ≤ pos.row ∧ pos.row < (board.size : Int) ∧ 0 ≤ pos.col ∧ pos.col < (board.size : Int)

instance (board : BoggleBoard) (pos : Position) : Decidable (onBoard board pos) := by
  unfold onBoard
  infer_instance

/-- The board has a non-empty glyph at the position. -/
def letterOk (board : BoggleBoard) (pos : Position) : Prop :=
  ∃ l, getLetter board pos.row pos.col = some l ∧ l ≠ ""

/-- The path shape explored by the solver's DFS from a given visited set:
every entry in bounds with a non-empty glyph, fresh with respect to earlier
entries and the visited set, consecutive entries adjacent. -/
def chainFrom (board : BoggleBoard) : List Position → List Position → Prop
  | _, [] => True
  | visited, pos :: rest =>
    onBoard board pos ∧ pos ∉ visited ∧ letterOk board pos ∧
    (match rest with
     | [] => True
     | next :: _ => areAdjacent pos next = true) ∧
    chainFrom board (pos :: visited) rest

lemma getWordFromPath_cons (board : BoggleBoard) (pos : Position)
    (rest : List Position) :
    getWordFromPath board (pos :: rest) =
      upper ((getLetter board pos.row pos.col).getD "").data ++
        getWordFromPath board rest := by
  simp [getWordFromPath, upper]

lemma getWordFromPath_nil (board : BoggleBoard) : getWordFromPath board [] = [] := by
  simp [getWordFromPath, upper]

set_option maxHeartbeats 1000000 in
/-- 8-adjacency as an offset from `neighborDeltas`. -/
lemma areAdjacent_iff_delta (p q : Position) :
    areAdjacent p q = true ↔
      ∃ d ∈ neighborDeltas, q = ⟨p.row + d.1, p.col + d.2⟩ := by
  rw [areAdjacent_iff]
  constructor
  · rintro ⟨hr, hc, hz⟩
    refine ⟨(q.row - p.row, q.col - p.col), ?_, ?_⟩
    · simp only [neighborDeltas, List.mem_cons, List.not_mem_nil, or_false,
        Prod.mk.injEq]
      omega
    · rw [position_eq_iff]
      dsimp only
      constructor <;> omega
  · rintro ⟨d, hd, rfl⟩
    rw [specAdjacent]
    simp only [neighborDeltas, List.mem_cons, List.not_mem_nil, or_false] at hd
    rcases hd with h | h | h | h | h | h | h | h <;> subst h <;>
      refine ⟨by dsimp only; omega, by dsimp only; omega, by dsimp only; omega⟩

lemma row_col_index_lt {n r c : Nat} (hr : r < n) (hc : c < n) :
    r * n + c < n * n := by
  calc r * n + c < r * n + n := by omega
    _ = (r + 1) * n := by ring
    _ ≤ n * n := Nat.mul_le_mul_right n hr

lemma row_col_index_inj {n r1 c1 r2 c2 : Nat} (hc1 : c1 < n) (hc2 : c2 < n)
    (h : r1 * n + c1 = r2 * n + c2) : r1 = r2 ∧ c1 = c2 := by
  rcases Nat.lt_trichotomy r1 r2 with hlt | heq | hgt
  · exfalso
    have h2 : r1 * n + c1 < r2 * n + c2 := by
      calc r1 * n + c1 < r1 * n + n := by omega
        _ = (r1 + 1) * n := by ring
        _ ≤ r2 * n := Nat.mul_le_mul_right n hlt
        _ ≤ r2 * n + c2 := Nat.le_add_right _ _
    omega
  · refine ⟨heq, ?_⟩
    rw [heq] at h
    omega
  · exfalso
    have h2 : r2 * n + c2 < r1 * n + c1 := by
      calc r2 * n + c2 < r2 * n + n := by omega
        _ = (r2 + 1) * n := by ring
        _ ≤ r1 * n := Nat.mul_le_mul_right n hgt
        _ ≤ r1 * n + c1 := Nat.le_add_right _ _
    omega

/-- A duplicate-free list of on-board positions has at most `size * size`
entries. -/
lemma length_le_of_nodup_onBoard {board : BoggleBoard} {l : List Position}
    (hnd : l.Nodup) (hob : ∀ q ∈ l, onBoard board q) :
    l.length ≤ board.size * board.size := by
  classical
  have hinj : ∀ x ∈ l, ∀ y ∈ l,
      (fun q : Position => q.row.toNat * board.size + q.col.toNat) x =
        (fun q : Position => q.row.toNat * board.size + q.col.toNat) y → x = y := by
    intro x hx y hy hxy
    obtain ⟨hx1, hx2, hx3, hx4⟩ := hob x hx
    obtain ⟨hy1, hy2, hy3, hy4⟩ := hob y hy
    have hcx : x.col.toNat < board.size := by omega
    have hcy : y.col.toNat < board.size := by omega
    simp only at hxy
    obtain ⟨hr, hc⟩ := row_col_index_inj hcx hcy hxy
    rw [position_eq_iff]
    constructor <;> omega
  have hmapnd :
      (l.map fun q : Position => q.row.toNat * board.size + q.col.toNat).Nodup :=
    hnd.map_on hinj
  have hsub :
      (l.map fun q : Position => q.row.toNat * board.size + q.col.toNat).toFinset ⊆
        Finset.range (board.size * board.size) := by
    intro m hm
    rw [List.mem_toFinset, List.mem_map] at hm
    obtain ⟨q, hq, rfl⟩ := hm
    obtain ⟨h1, h2, h3, h4⟩ := hob q hq
    rw [Finset.mem_range]
    exact row_col_index_lt (by omega) (by omega)
  have hcard := Finset.card_le_card hsub
  rw [List.toFinset_card_of_nodup hmapnd, Finset.card_range, List.length_map] at hcard
  exact hcard

lemma onBoard_of_not_out {board : BoggleBoard} {row col : Int}
    (h : ¬(row < 0 ∨ (board.size : Int) ≤ row ∨ col < 0 ∨ (board.size : Int) ≤ col)) :
    onBoard board ⟨row, col⟩ := by
  rw [onBoard]
  dsimp only
  omega

/-- Soundness of the solver's DFS: every collected word is spelled by a
DFS-shaped path starting at the probed cell. -/
lemma findDfs_sound {dict : List (List Char)} {t : TrieNode} {board : BoggleBoard} :
    ∀ (fuel : Nat) (visited : List Position) (row col : Int) (cw w : List Char),
      w ∈ findDfs dict t board fuel visited row col cw →
      ∃ rest, chainFrom board visited (⟨row, col⟩ :: rest) ∧
        w = cw ++ getWordFromPath board (⟨row, col⟩ :: rest) ∧
        3 ≤ w.length ∧ isWord dict w = true := by
  intro fuel
  induction fuel with
  | zero =>
    intro visited row col cw w hmem
    rw [findDfs] at hmem
    exact absurd hmem (Finset.not_mem_empty w)
  | succ fuel ih =>
    intro visited row col cw w hmem
    rw [findDfs] at hmem
    by_cases hout : row < 0 ∨ (board.size : Int) ≤ row ∨ col < 0 ∨ (board.size : Int) ≤ col
    · rw [if_pos hout] at hmem
      exact absurd hmem (Finset.not_mem_empty w)
    rw [if_neg hout] at hmem
    by_cases hvis : (⟨row, col⟩ : Position) ∈ visited
    · rw [if_pos hvis] at hmem
      exact absurd hmem (Finset.not_mem_empty w)
    rw [if_neg hvis] at hmem
    cases hlet : getLetter board row col with
    | none =>
      rw [hlet] at hmem
      exact absurd hmem (Finset.not_mem_empty w)
    | some letter =>
      rw [hlet] at hmem
      dsimp only at hmem
      by_cases hlne : letter = ""
      · rw [if_pos hlne] at hmem
        exact absurd hmem (Finset.not_mem_empty w)
      rw [if_neg hlne] at hmem
      by_cases hpre : isPrefixB t (cw ++ upper letter.data) = true
      · rw [if_neg (not_not_intro hpre)] at hmem
        rcases Finset.mem_union.mp hmem with hbase | hfold
        · by_cases hcond : 3 ≤ (cw ++ upper letter.data).length ∧
              isWord dict (cw ++ upper letter.data) = true
          · rw [if_pos hcond] at hbase
            have hw : w = cw ++ upper letter.data := Finset.mem_singleton.mp hbase
            refine ⟨[], ?_, ?_, ?_, ?_⟩
            · exact ⟨onBoard_of_not_out hout, hvis, ⟨letter, hlet, hlne⟩,
                trivial, trivial⟩
            · rw [getWordFromPath_cons, getWordFromPath_nil, hlet]
              simp [hw]
            · rw [hw]
              exact hcond.1
            · rw [hw]
              exact hcond.2
          · rw [if_neg hcond] at hbase
            exact absurd hbase (Finset.not_mem_empty w)
        · rw [mem_foldr_union] at hfold
          rcases hfold with ⟨d, hd, hmem2⟩ | hempty
          · obtain ⟨rest2, hchain2, hw2, hlen2, hword2⟩ := ih _ _ _ _ _ hmem2
            refine ⟨⟨row + d.1, col + d.2⟩ :: rest2, ?_, ?_, hlen2, hword2⟩
            · refine ⟨onBoard_of_not_out hout, hvis, ⟨letter, hlet, hlne⟩, ?_,
                hchain2⟩
              show areAdjacent (⟨row, col⟩ : Position) ⟨row + d.1, col + d.2⟩ = true
              rw [areAdjacent_iff_delta]
              exact ⟨d, hd, rfl⟩
            · rw [getWordFromPath_cons, hlet]
              dsimp only [Option.getD_some]
              rw [hw2, List.append_assoc]
          · exact absurd hempty (Finset.not_mem_empty w)
      · rw [if_pos hpre] at hmem
        exact absurd hmem (Finset.not_mem_empty w)

/-- Completeness of the solver's DFS: with enough fuel, every dictionary word
spelled by a DFS-shaped path from the probed cell is collected (the prefix
prune never cuts it, because every accumulated prefix of a dictionary word
passes the trie check). -/
lemma findDfs_complete {dict : List (List Char)} {board : BoggleBoard} :
    ∀ (fuel : Nat) (visited : List Position) (row col : Int) (cw w : List Char)
      (rest : List Position),
      board.size * board.size + 1 ≤ fuel + visited.length →
      visited.Nodup → (∀ q ∈ visited, onBoard board q) →
      chainFrom board visited (⟨row, col⟩ :: rest) →
      w = cw ++ getWordFromPath board (⟨row, col⟩ :: rest) →
      3 ≤ w.length → isWord dict w = true →
      w ∈ findDfs dict (trieOf dict) board fuel visited row col cw := by
  intro fuel
  induction fuel with
  | zero =>
    intro visited row col cw w rest hfuel hnd hob hchain hw hlen hword
    exfalso
    have := length_le_of_nodup_onBoard hnd hob
    omega
  | succ fuel ih =>
    intro visited row col cw w rest hfuel hnd hob hchain hw hlen hword
    obtain ⟨hob1, hvis, ⟨letter, hlet, hlne⟩, hadj, hchain2⟩ := hchain
    have hweq : w = cw ++ upper letter.data ++ getWordFromPath board rest := by
      rw [hw, getWordFromPath_cons, hlet]
      dsimp only [Option.getD_some]
      rw [List.append_assoc]
    have hpre : isPrefixB (trieOf dict) (cw ++ upper letter.data) = true := by
      refine isPrefixB_of_prefix_isWord hword ?_
      rw [hweq]
      exact ⟨getWordFromPath board rest, rfl⟩
    rw [findDfs]
    rw [if_neg (by rw [onBoard] at hob1; dsimp only at hob1; omega)]
    rw [if_neg hvis, hlet]
    dsimp only
    rw [if_neg hlne, if_neg (not_not_intro hpre)]
    cases rest with
    | nil =>
      apply Finset.mem_union_left
      have hw2 : w = cw ++ upper letter.data := by
        rw [hweq, getWordFromPath_nil, List.append_nil]
      rw [if_pos ⟨by rw [← hw2]; exact hlen, by rw [← hw2]; exact hword⟩]
      rw [Finset.mem_singleton]
      exact hw2
    | cons next rest2 =>
      apply Finset.mem_union_right
      rw [mem_foldr_union]
      left
      obtain ⟨d, hd, hnext⟩ := (areAdjacent_iff_delta _ _).mp hadj
      subst hnext
      refine ⟨d, hd, ?_⟩
      refine ih (⟨row, col⟩ :: visited) (row + d.1) (col + d.2)
        (cw ++ upper letter.data) w rest2 (by simp; omega)
        (List.nodup_cons.mpr ⟨hvis, hnd⟩) ?_ ?_ (by exact hweq) hlen hword
      · intro q hq
        rcases List.mem_cons.mp hq with rfl | hq2
        · exact hob1
        · exact hob q hq2
      · exact hchain2

lemma mem_findAllWords {dict : List (List Char)} {board : BoggleBoard}
    {w : List Char} :
    w ∈ findAllWords dict board ↔
      ∃ row col : Nat, row < board.size ∧ col < board.size ∧
        w ∈ findDfs dict (trieOf dict) board (board.size * board.size + 1) []
          (row : Int) (col : Int) [] := by
  rw [findAllWords]
  have haux : ∀ (rows : List Nat) (init : Finset (List Char)),
      (w ∈ rows.foldr
        (fun (row : Nat) acc =>
          (List.range board.size).foldr
            (fun (col : Nat) acc2 =>
              findDfs dict (trieOf dict) board (board.size * board.size + 1) []
                ((row : Int)) ((col : Int)) [] ∪ acc2)
            acc)
        init) ↔
      ((∃ row ∈ rows, ∃ col ∈ List.range board.size,
          w ∈ findDfs dict (trieOf dict) board (board.size * board.size + 1) []
            (row : Int) (col : Int) []) ∨ w ∈ init) := by
    intro rows
    induction rows with
    | nil => simp
    | cons r rows ih =>
      intro init
      rw [List.foldr_cons, mem_foldr_union, ih]
      constructor
      · rintro (⟨c, hc, hmem⟩ | ⟨r2, hr2, c, hc, hmem⟩ | h)
        · exact Or.inl ⟨r, List.mem_cons_self r rows, c, hc, hmem⟩
        · exact Or.inl ⟨r2, List.mem_cons_of_mem r hr2, c, hc, hmem⟩
        · exact Or.inr h
      · rintro (⟨r2, hr2, c, hc, hmem⟩ | h)
        · rcases List.mem_cons.mp hr2 with rfl | hr3
          · exact Or.inl ⟨c, hc, hmem⟩
          · exact Or.inr (Or.inl ⟨r2, hr3, c, hc, hmem⟩)
        · exact Or.inr (Or.inr h)
  rw [haux]
  simp only [List.mem_range, Finset.not_mem_empty, or_false]
  constructor
  · rintro ⟨row, hrow, col, hcol, hmem⟩
    exact ⟨row, col, hrow, hcol, hmem⟩
  · rintro ⟨row, col, hrow, hcol, hmem⟩
    exact ⟨row, hrow, col, hcol, hmem⟩

lemma chainFrom_iff (board : BoggleBoard) (p : List Position) :
    ∀ visited, chainFrom board visited p ↔
      ((∀ q ∈ p, onBoard board q ∧ letterOk board q ∧ q ∉ visited) ∧
        p.Nodup ∧ adjChainB p = true) := by
  induction p with
  | nil =>
    intro visited
    simp [chainFrom, adjChainB]
  | cons pos rest ih =>
    intro visited
    constructor
    · rintro ⟨h1, h2, h3, h4, h5⟩
      rw [ih (pos :: visited)] at h5
      obtain ⟨hAll, hnd, hchain⟩ := h5
      refine ⟨?_, ?_, ?_⟩
      · intro q hq
        rcases List.mem_cons.mp hq with rfl | hq2
        · exact ⟨h1, h3, h2⟩
        · obtain ⟨ho, hl, hnv⟩ := hAll q hq2
          exact ⟨ho, hl, fun hc => hnv (List.mem_cons_of_mem _ hc)⟩
      · rw [List.nodup_cons]
        exact ⟨fun hmem => (hAll pos hmem).2.2 (List.mem_cons_self _ _), hnd⟩
      · cases rest with
        | nil => rfl
        | cons next rest2 =>
          rw [adjChainB, Bool.and_eq_true]
          exact ⟨h4, hchain⟩
    · rintro ⟨hAll, hnd, hchain⟩
      obtain ⟨ho, hl, hnv⟩ := hAll pos (List.mem_cons_self _ _)
      rw [List.nodup_cons] at hnd
      refine ⟨ho, hnv, hl, ?_, ?_⟩
      · cases rest with
        | nil => trivial
        | cons next rest2 =>
          rw [adjChainB, Bool.and_eq_true] at hchain
          exact hchain.1
      · rw [ih (pos :: visited)]
        refine ⟨?_, hnd.2, ?_⟩
        · intro q hq
          obtain ⟨ho2, hl2, hnv2⟩ := hAll q (List.mem_cons_of_mem _ hq)
          refine ⟨ho2, hl2, ?_⟩
          intro hc
          rcases List.mem_cons.mp hc with rfl | hc2
          · exact hnd.1 hq
          · exact hnv2 hc2
        · cases rest with
          | nil => rfl
          | cons next rest2 =>
            rw [adjChainB, Bool.and_eq_true] at hchain
            exact hchain.2

lemma letterOk_of_onBoard {board : BoggleBoard} (hwf : WellFormed board)
    (hglyph : ∀ row ∈ board.grid, ∀ g ∈ row, g ≠ "") {q : Position}
    (hob : onBoard board q) : letterOk board q := by
  obtain ⟨hlen, hrows⟩ := hwf
  obtain ⟨h1, h2, h3, h4⟩ := hob
  have hrlt : q.row.toNat < board.grid.length := by omega
  obtain ⟨r, hr⟩ : ∃ r, board.grid.get? q.row.toNat = some r :=
    ⟨_, List.get?_eq_get hrlt⟩
  have hrmem : r ∈ board.grid := List.get?_mem hr
  have hclt : q.col.toNat < r.length := by
    rw [hrows r hrmem]
    omega
  obtain ⟨g, hg⟩ : ∃ g, r.get? q.col.toNat = some g := ⟨_, List.get?_eq_get hclt⟩
  have hgmem : g ∈ r := List.get?_mem hg
  refine ⟨g, ?_, hglyph r hrmem g hgmem⟩
  rw [getLetter, if_neg (by omega), hr]
  exact hg

/-! ## C1: the solver finds exactly the dictionary words spelled by valid
paths on the board -/

/-- C1: on a well-formed board (square grid of non-empty glyphs, the data
model's board invariant), `findAllWords` contains a word exactly when it is a
dictionary word of length ≥ 3 spelled by some valid path of on-board positions
(`isValidPath` holds and `getWordFromPath` resolves the path to the word, a
`Qu` tile contributing both characters in one step); the result is a set, so
it has no duplicates. -/
theorem findAllWords_spec (dict : List (List Char)) (board : BoggleBoard)
    (hwf : WellFormed board)
    (hglyph : ∀ row ∈ board.grid, ∀ g ∈ row, g ≠ "") (w : List Char) :
    w ∈ findAllWords dict board ↔
      (3 ≤ w.length ∧ isWord dict w = true ∧
        ∃ p, (∀ q ∈ p, onBoard board q) ∧ isValidPath p = true ∧
          getWordFromPath board p = w) := by
  rw [mem_findAllWords]
  constructor
  · rintro ⟨row, col, hrow, hcol, hmem⟩
    obtain ⟨rest, hchain, hw, hlen, hword⟩ := findDfs_sound _ _ _ _ _ _ hmem
    rw [List.nil_append] at hw
    rw [chainFrom_iff] at hchain
    obtain ⟨hAll, hnd, hadj⟩ := hchain
    refine ⟨hlen, hword, ⟨(⟨(row : Int), (col : Int)⟩ : Position) :: rest,
      fun q hq => (hAll q hq).1, ?_, hw.symm⟩⟩
    rw [isValidPath]
    simp only [List.isEmpty_cons, Bool.false_eq_true, if_false, Bool.and_eq_true,
      noRepeatsB_iff]
    exact ⟨hnd, hadj⟩
  · rintro ⟨hlen, hword, p, hob, hval, hwp⟩
    have hne : p ≠ [] := by
      intro h0
      rw [h0, isValidPath] at hval
      simp at hval
    obtain ⟨start, rest, rfl⟩ := List.exists_cons_of_ne_nil hne
    obtain ⟨h1, h2, h3, h4⟩ := hob start (List.mem_cons_self _ _)
    refine ⟨start.row.toNat, start.col.toNat, by omega, by omega, ?_⟩
    have hcast_r : ((start.row.toNat : Nat) : Int) = start.row :=
      Int.toNat_of_nonneg h1
    have hcast_c : ((start.col.toNat : Nat) : Int) = start.col :=
      Int.toNat_of_nonneg h3
    rw [hcast_r, hcast_c]
    rw [isValidPath] at hval
    simp only [List.isEmpty_cons, Bool.false_eq_true, if_false, Bool.and_eq_true,
      noRepeatsB_iff] at hval
    obtain ⟨hnd, hadjB⟩ := hval
    refine findDfs_complete _ [] start.row start.col [] w rest (by simp)
      List.nodup_nil (by simp) ?_ ?_ hlen hword
    · rw [chainFrom_iff]
      exact ⟨fun q hq => ⟨hob q hq, letterOk_of_onBoard hwf hglyph (hob q hq),
        List.not_mem_nil q⟩, hnd, hadjB⟩
    · rw [List.nil_append]
      exact hwp.symm

/-- Witness for C1 on a concrete board and dictionary: `CAT` is spelled by the
valid path `[(0,0), (0,1), (1,0)]` on `[[C,A],[T,S]]`, so the solver finds it. -/
theorem findAllWords_spec_witness :
    "CAT".data ∈ findAllWords ["cat".data] ⟨[["C", "A"], ["T", "S"]], 2⟩ :=
  (findAllWords_spec ["cat".data] ⟨[["C", "A"], ["T", "S"]], 2⟩
      (by constructor <;> decide) (by decide) "CAT".data).mpr
    ⟨by decide, by decide, [⟨0, 0⟩, ⟨0, 1⟩, ⟨1, 0⟩], by decide, by decide, by decide⟩

end GameHub
